import Mathlib

/-!
Verification of the parallel map-reduce word counter (`src/main.cpp`).

The C++ program reads a text file in batches of `BATCH_SIZE` lines, splits each
batch across `threadCount` map workers that build private word-frequency tables
(`countWordsInChunk`), merges the per-worker tables into a shared global table
under stripe locks (`mergeWorker`), sorts the global table lexicographically by
word and writes it to `output.txt`.

This file gives a shallow embedding of that program and proves / refutes the
frozen specification claims about it.  Bytes are modelled as `Nat` (values
0..255), C++ `std::string` as `List Nat`, and `std::unordered_map<std::string,
std::size_t>` as an association list in insertion order (`Table`); the merge
phase, executed concurrently in the program, is embedded as its canonical
linearisation (worker 0's loop, then worker 1's, ...), and commutativity of the
per-entry updates under permutation is proved separately.
-/

namespace WC

/-- A byte of input text (`char` cast to `unsigned char` in the source). -/
abbrev Byte := Nat

/-- A C++ `std::string`: a sequence of bytes. -/
abbrev Word := List Byte

/-- A line of input, as handed out by `std::getline` (no trailing newline). -/
abbrev Line := List Byte

/-- `std::isalpha` in the default "C" locale: true exactly on ASCII letters
`A`-`Z` (65-90) and `a`-`z` (97-122); false on all bytes ≥ 0x80. -/
def isalphaC (c : Byte) : Bool :=
  ((65 : Nat) ≤ c && c ≤ (90 : Nat)) || ((97 : Nat) ≤ c && c ≤ (122 : Nat))

/-- `std::isspace` in the default "C" locale: true exactly on space (32) and
the control characters TAB..CR (9-13); false on all bytes ≥ 0x80. -/
def isspaceC (c : Byte) : Bool :=
  c == (32 : Nat) || ((9 : Nat) ≤ c && c ≤ (13 : Nat))

/-- The tokenizer's per-character test, `main.cpp` lines 43-47: a character is
kept iff (`isalpha(uch) || uch >= 0x80`) and it is not `'-'` (45) and not
whitespace. -/
def qualifies (c : Byte) : Bool :=
  (isalphaC c || (128 : Nat) ≤ c) && !(c == (45 : Nat)) && !(isspaceC c)

/-- The character loop of `countWordsInChunk` (`main.cpp` lines 41-57),
abstracted to return the emitted tokens in order: a qualifying character is
appended to the current word (`word += ch`, with no case conversion); a
non-qualifying character flushes a non-empty current word; a non-empty word
left at end of line is flushed. -/
def tokenizeAux : List Byte → Word → List Word
  | [], word => if word = [] then [] else [word]
  | c :: rest, word =>
    if qualifies c then tokenizeAux rest (word ++ [c])
    else if word = [] then tokenizeAux rest []
    else word :: tokenizeAux rest []

/-- Tokens of one line, in emission order. -/
def tokenizeLine (line : Line) : List Word :=
  tokenizeAux line []

/-- Spec-side reference tokenizer, following the spec's words (§4.1): tokens
are the maximal runs of qualifying characters; a token ends at every
non-qualifying character or at end of line; empty tokens are never emitted. -/
def specTokens : List Byte → List Word
  | [] => []
  | c :: rest =>
    if qualifies c then
      (c :: rest.takeWhile qualifies) :: specTokens (rest.dropWhile qualifies)
    else
      specTokens rest
termination_by l => l.length
decreasing_by
  · simpa using Nat.lt_succ_of_le (List.dropWhile_sublist (p := qualifies)).length_le
  · simp

/-- Tokens of a sequence of lines, processed in order by one thread. -/
def tokensOfLines (lines : List Line) : List Word :=
  (lines.map tokenizeLine).flatten

/-- `std::unordered_map<std::string, std::size_t>`, embedded as an association
list in insertion order.  The hash map's iteration order is
implementation-defined; the program only sorts or sums its contents, so the
list order never influences the observable results proved below. -/
abbrev Table := List (Word × Nat)

/-- Reading `m[w]` without inserting (value 0 when absent, the
value-initialised `std::size_t`). -/
def getCount : Table → Word → Nat
  | [], _ => 0
  | (v, m) :: rest, w => if v = w then m else getCount rest w

/-- `m[w] += n`: add `n` to the entry of `w`, inserting it with value `n`
(default 0 plus `n`) when absent.  This models both `localCounts[word]++`
(line 51, `n = 1`) and `globalCounts[kv.first] += kv.second` (line 115). -/
def addCount : Table → Word → Nat → Table
  | [], w, n => [(w, n)]
  | (v, m) :: rest, w, n =>
    if v = w then (v, m + n) :: rest else (v, m) :: addCount rest w n

/-- The keys of a table. -/
def keysOf (t : Table) : List Word :=
  t.map Prod.fst

/-- Total of the counts stored in a table. -/
def sumCounts (t : Table) : Nat :=
  (t.map Prod.snd).sum

/-- The total count that the entries of a table contribute for one word (the
amount the merge phase adds to the global entry of `w` when it folds the
table in). -/
def entriesSum (t : Table) (w : Word) : Nat :=
  ((t.filter fun p => p.1 == w).map Prod.snd).sum

/-- Fold a token stream into a table, one `localCounts[word]++` per token. -/
def countTokens (ts : List Word) (t : Table) : Table :=
  ts.foldl (fun acc w => addCount acc w 1) t

/-- `countWordsInChunk(allLines, startLine, endLine, localCounts)`
(`main.cpp` lines 25-59): for `i` in `[startLine, endLine)`, tokenize line `i`
and count its tokens into `localCounts`.  Out-of-range indices (never reached
by the program) read an empty line. -/
def countWordsInChunk (allLines : List Line) (startLine endLine : Nat)
    (localCounts : Table) : Table :=
  if startLine < endLine then
    countWordsInChunk allLines (startLine + 1) endLine
      (countTokens (tokenizeLine (allLines.getD startLine [])) localCounts)
  else localCounts
termination_by endLine - startLine

/-- `linesPerThread = (totalLines + threadCount - 1) / threadCount`
(`main.cpp` lines 131 and 163): ceiling division. -/
def linesPerThread (totalLines threadCount : Nat) : Nat :=
  (totalLines + threadCount - 1) / threadCount

/-- `start = t * linesPerThread` (`main.cpp` lines 139 and 170). -/
def workerStart (totalLines threadCount t : Nat) : Nat :=
  t * linesPerThread totalLines threadCount

/-- `end = std::min(start + linesPerThread, totalLines)`
(`main.cpp` lines 140 and 171). -/
def workerEnd (totalLines threadCount t : Nat) : Nat :=
  min (workerStart totalLines threadCount t + linesPerThread totalLines threadCount)
    totalLines

/-- The map phase of one batch (`main.cpp` lines 130-149 / 162-180): the
per-thread tables are cleared, then worker `t` runs `countWordsInChunk` on
lines `[start, end)`.  A worker whose range is empty is skipped (`break`,
line 141/172); its cleared table stays empty, which coincides with
`countWordsInChunk` on an empty range. -/
def mapBatch (batch : List Line) (threadCount : Nat) : List Table :=
  (List.range threadCount).map fun t =>
    countWordsInChunk batch (workerStart batch.length threadCount t)
      (workerEnd batch.length threadCount t) []

/-- `idx = std::hash<std::string>{}(word) % stripeCount` (`main.cpp` lines
112-113).  `std::hash` is implementation-defined, so the hash is a parameter;
the stripe index only selects which lock guards the update. -/
def stripeIndex (hash : Word → Nat) (stripeCount : Nat) (w : Word) : Nat :=
  hash w % stripeCount

/-- One guarded update of the merge loop body (`main.cpp` lines 112-115):
compute the stripe of the word, acquire that stripe's lock, and perform
`globalCounts[kv.first] += kv.second`.  The lock serialises the update but
does not change its value. -/
def mergeEntry (hash : Word → Nat) (stripeCount : Nat) (g : Table)
    (kv : Word × Nat) : Table :=
  let _idx := stripeIndex hash stripeCount kv.1
  addCount g kv.1 kv.2

/-- Merge every entry of one local table into the global table (the inner
`for (auto const& kv : perThreadCounts[i])` loop, `main.cpp` lines 111-116). -/
def mergeTable (hash : Word → Nat) (stripeCount : Nat) (g : Table)
    (t : Table) : Table :=
  t.foldl (mergeEntry hash stripeCount) g

/-- The index loop of `mergeWorker` (`main.cpp` lines 109-117) from index `i`
upward: table `i` is merged iff `i % threadCount == workerId`. -/
def mergeWorkerGo (hash : Word → Nat) (stripeCount : Nat) (tables : List Table)
    (threadCount workerId : Nat) (i : Nat) (g : Table) : Table :=
  if i < tables.length then
    mergeWorkerGo hash stripeCount tables threadCount workerId (i + 1)
      (if i % threadCount = workerId then
        mergeTable hash stripeCount g (tables.getD i []) else g)
  else g
termination_by tables.length - i

/-- One merge worker's whole run (`mergeWorker(workerId)`). -/
def mergeWorkerRun (hash : Word → Nat) (stripeCount : Nat) (tables : List Table)
    (threadCount workerId : Nat) (g : Table) : Table :=
  mergeWorkerGo hash stripeCount tables threadCount workerId 0 g

/-- The joined merge workers `w = 0 .. threadCount-1` (`main.cpp` lines
153-156 / 182-185), embedded as their canonical linearisation in worker-id
order.  Commutativity of the updates under any other interleaving is proved
separately (`mergeTable_get_perm`). -/
def mergeAllGo (hash : Word → Nat) (stripeCount : Nat) (tables : List Table)
    (threadCount w : Nat) (g : Table) : Table :=
  if w < threadCount then
    mergeAllGo hash stripeCount tables threadCount (w + 1)
      (mergeWorkerRun hash stripeCount tables threadCount w g)
  else g
termination_by threadCount - w

/-- The complete merge phase of one batch. -/
def mergeAll (hash : Word → Nat) (stripeCount : Nat) (tables : List Table)
    (threadCount : Nat) (g : Table) : Table :=
  mergeAllGo hash stripeCount tables threadCount 0 g

/-- `BATCH_SIZE` (`main.cpp` line 83). -/
def BATCH_SIZE : Nat := 100000

/-- The batches formed by the streaming read loop (`main.cpp` lines 126-158)
plus the leftover batch (lines 161-186): consecutive groups of exactly
`batchSize` lines, the last group possibly shorter, an empty leftover being
skipped.  For `batchSize ≥ 1` there are `⌈length / batchSize⌉` groups. -/
def toBatches (batchSize : Nat) (lines : List Line) : List (List Line) :=
  (List.range ((lines.length + batchSize - 1) / batchSize)).map fun i =>
    (lines.drop (i * batchSize)).take batchSize

/-- Map phase then merge phase for one batch (one iteration of the streaming
loop): the per-thread tables are cleared and rebuilt by the map workers, then
all `threadCount` merge workers fold them into the global table. -/
def processBatch (hash : Word → Nat) (stripeCount threadCount : Nat)
    (g : Table) (batch : List Line) : Table :=
  mergeAll hash stripeCount (mapBatch batch threadCount) threadCount g

/-- The whole counting pipeline of `main`: the global table produced after
every batch of the input has been mapped and merged. -/
def pipelineTable (hash : Word → Nat) (stripeCount batchSize threadCount : Nat)
    (lines : List Line) : Table :=
  (toBatches batchSize lines).foldl (processBatch hash stripeCount threadCount) []

/-- Folding the entries of a local table into a global table by plain
`addCount`; `mergeTable` reduces to this (the stripe index only names a
lock). -/
def mergeInto (g t : Table) : Table :=
  t.foldl (fun acc kv => addCount acc kv.1 kv.2) g

/-- The sequential reference: the table produced by one thread tokenizing the
whole file in order.  The spec's conservation and determinism properties
compare the pipeline against this. -/
def seqTable (lines : List Line) : Table :=
  countTokens (tokensOfLines lines) []

/-- `std::string` `operator<`: lexicographic comparison of the byte
sequences (`std::char_traits<char>` compares as `unsigned char`). -/
def wordLt : Word → Word → Bool
  | [], [] => false
  | [], _ :: _ => true
  | _ :: _, [] => false
  | a :: as, b :: bs => a < b || (a == b && wordLt as bs)

/-- The comparator contract `std::sort` establishes between consecutive
elements with comparator `a.first < b.first` (`main.cpp` lines 199-200):
the later element is not less than the earlier. -/
def entryLe (a b : Word × Nat) : Prop :=
  wordLt b.1 a.1 = false

/-- Strict order on output entries: the words strictly increase. -/
def entryLt (a b : Word × Nat) : Prop :=
  wordLt a.1 b.1 = true

instance : DecidableRel entryLe := fun a b => by
  unfold entryLe; infer_instance

/-- The sorted `(word, count)` sequence (`main.cpp` lines 195-200). -/
def sortedWords (g : Table) : List (Word × Nat) :=
  g.insertionSort entryLe

/-- A word rendered back to a `String` for output (byte values as code
points; the inputs of interest are ASCII). -/
def renderWord (w : Word) : String :=
  String.mk (w.map Char.ofNat)

/-- The header line written first to the output file (`main.cpp` line 207). -/
def headerLine : String := "=== Final Word Counts (A → Z) ==="

/-- One `word -> count` output line (`main.cpp` line 209). -/
def renderEntry (p : Word × Nat) : String :=
  renderWord p.1 ++ " -> " ++ toString p.2

/-- The full content of the output file: header then one line per word. -/
def outputContent (g : Table) : List String :=
  headerLine :: (sortedWords g).map renderEntry

/-- A `String.toList`-based byte view of an ASCII string, for stating concrete
examples conveniently. -/
def strBytes (s : String) : List Byte :=
  s.toList.map Char.toNat

/-- The input stream as seen through `std::getline` (`main.cpp` line 126):
the lines delivered before `getline` first returned false, and whether that
false was a mid-stream read error rather than end of file.  The program never
inspects the stream state after the loop, so the flag is invisible to it. -/
structure InputStream where
  delivered : List Line
  readError : Bool

/-- The messages `main` writes to standard output, tagged by kind: the
per-map-worker debug line (lines 34-36), the per-merge-worker debug line
(lines 106-107), and the timing report (lines 219-221). -/
inductive StdoutMsg
  | mapDebug (startLine endLine : Nat)
  | mergeDebug (workerId : Nat)
  | timing

/-- The diagnostics `main` writes to standard error before exiting with 1. -/
inductive Diag
  | usage            -- line 63
  | inputOpenError   -- line 86
  | outputOpenError  -- line 204

/-- The externally observable outcome of one run of the program. -/
structure RunOutcome where
  exitCode : Nat
  stderrMsgs : List Diag
  fileWritten : Option (String × List String)
  stdoutMsgs : List StdoutMsg

/-- The stdout debug lines of one batch: one `[Map]` line per spawned map
worker (workers with an empty range are skipped by the `break` at line
141/172 and print nothing), then one `[Merge]` line per merge worker. -/
def batchStdout (batch : List Line) (threadCount : Nat) : List StdoutMsg :=
  ((List.range threadCount).filter fun t =>
      workerStart batch.length threadCount t < workerEnd batch.length threadCount t).map
    (fun t => StdoutMsg.mapDebug (workerStart batch.length threadCount t)
      (workerEnd batch.length threadCount t))
  ++ (List.range threadCount).map StdoutMsg.mergeDebug

/-- The whole of `main` (`main.cpp` lines 61-223), over the outcome-relevant
environment: the argument count, whether the input file opens, the input
stream, whether `output.txt` opens, and the configuration constants
(`batchSize` is fixed to `BATCH_SIZE = 100000` and `threadCount` to the
hardware concurrency in the source; they are parameters here, as in the
spec's configuration section).  Note the read loop ends identically on
end-of-file and on a read error, so `stream.readError` is never consulted. -/
def mainRun (hash : Word → Nat) (argc : Nat) (inputOpens : Bool)
    (stream : InputStream) (outputOpens : Bool)
    (batchSize threadCount : Nat) : RunOutcome :=
  if argc ≠ 2 then
    ⟨1, [Diag.usage], none, []⟩
  else if !inputOpens then
    ⟨1, [Diag.inputOpenError], none, []⟩
  else
    let g := pipelineTable hash threadCount batchSize threadCount stream.delivered
    let debug := ((toBatches batchSize stream.delivered).map
      (fun b => batchStdout b threadCount)).flatten
    if !outputOpens then
      ⟨1, [Diag.outputOpenError], none, debug⟩
    else
      ⟨0, [], some ("output.txt", outputContent g), debug ++ [StdoutMsg.timing]⟩

/-! ### Basic table lemmas -/

theorem keysOf_nil : keysOf [] = [] := rfl

theorem keysOf_cons (p : Word × Nat) (t : Table) :
    keysOf (p :: t) = p.1 :: keysOf t := rfl

theorem addCount_cons_self (x : Word) (k : Nat) (rest : Table) (n : Nat) :
    addCount ((x, k) :: rest) x n = (x, k + n) :: rest := by
  simp [addCount]

theorem addCount_cons_ne (x : Word) (k : Nat) (rest : Table) (w : Word)
    (n : Nat) (h : ¬ x = w) :
    addCount ((x, k) :: rest) w n = (x, k) :: addCount rest w n := by
  simp [addCount, h]

theorem getCount_addCount (t : Table) (w v : Word) (n : Nat) :
    getCount (addCount t w n) v = getCount t v + if w = v then n else 0 := by
  induction t with
  | nil =>
    by_cases h : w = v <;> simp [addCount, getCount, h]
  | cons p rest ih =>
    obtain ⟨x, k⟩ := p
    by_cases hx : x = w
    · subst hx
      by_cases hv : x = v
      · subst hv
        simp [addCount, getCount]
      · simp [addCount, getCount, hv]
    · by_cases hv : x = v
      · subst hv
        have hwv : ¬ w = x := fun h => hx h.symm
        simp [addCount, getCount, hx, hwv]
      · simp [addCount, getCount, hx, hv, ih]

theorem mem_keysOf_addCount (t : Table) (w v : Word) (n : Nat) :
    v ∈ keysOf (addCount t w n) ↔ v ∈ keysOf t ∨ v = w := by
  induction t with
  | nil =>
    simp [addCount, keysOf_cons, keysOf_nil, List.mem_cons, eq_comm]
  | cons p rest ih =>
    obtain ⟨x, k⟩ := p
    by_cases hx : x = w
    · subst hx
      rw [addCount_cons_self]
      simp only [keysOf_cons, List.mem_cons]
      tauto
    · rw [addCount_cons_ne _ _ _ _ _ hx]
      simp only [keysOf_cons, List.mem_cons, ih]
      tauto

theorem sumCounts_addCount (t : Table) (w : Word) (n : Nat) :
    sumCounts (addCount t w n) = sumCounts t + n := by
  induction t with
  | nil => simp [addCount, sumCounts]
  | cons p rest ih =>
    obtain ⟨x, k⟩ := p
    by_cases hx : x = w
    · subst hx
      rw [addCount_cons_self]
      simp only [sumCounts, List.map_cons, List.sum_cons]
      omega
    · rw [addCount_cons_ne _ _ _ _ _ hx]
      simp only [sumCounts, List.map_cons, List.sum_cons] at ih ⊢
      omega

theorem addCount_same (t : Table) (w : Word) (n m : Nat) :
    addCount (addCount t w n) w m = addCount t w (n + m) := by
  induction t with
  | nil => simp [addCount]
  | cons p rest ih =>
    obtain ⟨x, k⟩ := p
    by_cases hx : x = w
    · subst hx
      simp [addCount, Nat.add_assoc]
    · simp [addCount, hx, ih]

theorem addCount_comm (t : Table) (w : Word) (hw : w ∈ keysOf t) (v : Word)
    (n m : Nat) :
    addCount (addCount t w n) v m = addCount (addCount t v m) w n := by
  by_cases hvw : v = w
  · subst hvw
    rw [addCount_same, addCount_same, Nat.add_comm]
  · induction t with
    | nil => simp [keysOf_nil] at hw
    | cons p rest ih =>
      obtain ⟨x, k⟩ := p
      by_cases hxw : x = w
      · subst hxw
        have hxv : ¬ x = v := fun h => hvw h.symm
        simp [addCount, hxv]
      · have hw' : w ∈ keysOf rest := by
          rcases (by simpa [keysOf_cons, List.mem_cons] using hw :
              w = x ∨ w ∈ keysOf rest) with h | h
          · exact absurd h.symm hxw
          · exact h
        by_cases hxv : x = v
        · subst hxv
          simp [addCount, hxw]
        · simp [addCount, hxw, hxv, ih hw']

/-! ### Merging commutes with building tables -/

theorem mergeInto_nil (g : Table) : mergeInto g [] = g := rfl

theorem mergeInto_cons (g : Table) (kv : Word × Nat) (t : Table) :
    mergeInto g (kv :: t) = mergeInto (addCount g kv.1 kv.2) t := rfl

theorem mergeTable_eq_mergeInto (hash : Word → Nat) (stripeCount : Nat)
    (g t : Table) : mergeTable hash stripeCount g t = mergeInto g t := rfl

theorem mergeInto_addCount_mem (t g : Table) (w : Word) (hw : w ∈ keysOf g)
    (n : Nat) :
    mergeInto (addCount g w n) t = addCount (mergeInto g t) w n := by
  induction t generalizing g with
  | nil => rfl
  | cons kv rest ih =>
    rw [mergeInto_cons, mergeInto_cons,
      addCount_comm g w hw kv.1 n kv.2,
      ih (addCount g kv.1 kv.2) ((mem_keysOf_addCount _ _ _ _).mpr (Or.inl hw))]

theorem mergeInto_addCount (u : Table) (g : Table) (w : Word) (n : Nat) :
    mergeInto g (addCount u w n) = addCount (mergeInto g u) w n := by
  induction u generalizing g with
  | nil => rfl
  | cons p rest ih =>
    obtain ⟨v, m⟩ := p
    by_cases hvw : v = w
    · subst hvw
      rw [addCount_cons_self, mergeInto_cons, mergeInto_cons]
      have hmem : v ∈ keysOf (addCount g v m) :=
        (mem_keysOf_addCount _ _ _ _).mpr (Or.inr rfl)
      rw [← addCount_same, mergeInto_addCount_mem rest (addCount g v m) v hmem n]
    · rw [addCount_cons_ne _ _ _ _ _ hvw, mergeInto_cons, mergeInto_cons, ih]

theorem countTokens_nil (t : Table) : countTokens [] t = t := rfl

theorem countTokens_cons (w : Word) (ts : List Word) (t : Table) :
    countTokens (w :: ts) t = countTokens ts (addCount t w 1) := rfl

theorem countTokens_append (a b : List Word) (t : Table) :
    countTokens (a ++ b) t = countTokens b (countTokens a t) :=
  List.foldl_append ..

theorem mergeInto_countTokens (ts : List Word) (u g : Table) :
    mergeInto g (countTokens ts u) = countTokens ts (mergeInto g u) := by
  induction ts generalizing u with
  | nil => rfl
  | cons w rest ih =>
    rw [countTokens_cons, ih, mergeInto_addCount, countTokens_cons]

theorem mergeInto_countTokens_nil (ts : List Word) (g : Table) :
    mergeInto g (countTokens ts []) = countTokens ts g := by
  rw [mergeInto_countTokens, mergeInto_nil]

/-! ### The map phase over a line range -/

theorem tokensOfLines_nil : tokensOfLines [] = [] := rfl

theorem tokensOfLines_cons (l : Line) (ls : List Line) :
    tokensOfLines (l :: ls) = tokenizeLine l ++ tokensOfLines ls := by
  simp [tokensOfLines]

theorem tokensOfLines_append (a b : List Line) :
    tokensOfLines (a ++ b) = tokensOfLines a ++ tokensOfLines b := by
  simp [tokensOfLines]

theorem tokensOfLines_flatten (xss : List (List Line)) :
    tokensOfLines xss.flatten = (xss.map tokensOfLines).flatten := by
  induction xss with
  | nil => rfl
  | cons a rest ih => simp [tokensOfLines_append, ih]

theorem countWordsInChunk_add (L : List Line) (n : Nat) :
    ∀ (s : Nat) (t : Table),
      countWordsInChunk L s (s + n) t
        = countTokens (tokensOfLines ((L.drop s).take n)) t := by
  induction n with
  | zero =>
    intro s t
    rw [countWordsInChunk]
    simp [tokensOfLines_nil, countTokens_nil]
  | succ n ih =>
    intro s t
    rw [countWordsInChunk]
    rw [if_pos (by omega)]
    have harg : s + (n + 1) = (s + 1) + n := by omega
    rw [harg, ih (s + 1)]
    by_cases hs : s < L.length
    · rw [List.drop_eq_getElem_cons hs, List.take_succ_cons, tokensOfLines_cons,
        countTokens_append, List.getD_eq_getElem L [] hs]
    · have h1 : L.drop s = [] := List.drop_eq_nil_of_le (by omega)
      have h2 : L.drop (s + 1) = [] := List.drop_eq_nil_of_le (by omega)
      have h3 : L.getD s [] = [] := List.getD_eq_default L [] (by omega)
      rw [h1, h2, h3]
      simp [tokensOfLines_nil, countTokens_nil, tokenizeLine, tokenizeAux]

theorem countWordsInChunk_spec (L : List Line) (s e : Nat) (t : Table) :
    countWordsInChunk L s e t
      = countTokens (tokensOfLines ((L.drop s).take (e - s))) t := by
  rcases Nat.le_total s e with h | h
  · have : e = s + (e - s) := by omega
    rw [this, countWordsInChunk_add]
    simp
  · have h0 : e - s = 0 := by omega
    rw [countWordsInChunk, if_neg (by omega), h0]
    simp [tokensOfLines_nil, countTokens_nil]

/-! ### Partitioning into contiguous chunks -/

theorem le_ceil_mul (a b : Nat) (hb : 1 ≤ b) : a ≤ ((a + b - 1) / b) * b := by
  have h1 := Nat.div_add_mod' (a + b - 1) b
  have h2 := Nat.mod_lt (a + b - 1) hb
  omega

theorem chunks_flatten (lpt : Nat) (tc : Nat) :
    ∀ (L : List Line), L.length ≤ tc * lpt →
      ((List.range tc).map fun t => (L.drop (t * lpt)).take lpt).flatten = L := by
  induction tc with
  | zero =>
    intro L h
    have : L = [] := List.eq_nil_of_length_eq_zero (by simpa using h)
    simp [this]
  | succ tc ih =>
    intro L h
    rw [List.range_succ_eq_map, List.map_cons, List.map_map, List.flatten_cons]
    have hmap : (List.map ((fun t => (L.drop (t * lpt)).take lpt) ∘ Nat.succ)
        (List.range tc))
        = List.map (fun t => ((L.drop lpt).drop (t * lpt)).take lpt)
            (List.range tc) := by
      apply List.map_congr_left
      intro t _
      simp only [Function.comp_apply, List.drop_drop]
      have : t.succ * lpt = t * lpt + lpt := by
        rw [Nat.succ_mul]
      rw [this, Nat.add_comm (t * lpt) lpt]
    have hlen : (L.drop lpt).length ≤ tc * lpt := by
      rw [List.length_drop]
      have : (tc + 1) * lpt = tc * lpt + lpt := by rw [Nat.succ_mul]
      omega
    rw [hmap, ih (L.drop lpt) hlen]
    simp

theorem take_min_length (l : List Line) (a : Nat) :
    l.take (min a l.length) = l.take a := by
  rcases Nat.le_total a l.length with h | h
  · rw [Nat.min_eq_left h]
  · rw [Nat.min_eq_right h, List.take_length, List.take_of_length_le h]

/-- The slice of the batch that map worker `t` processes, rewritten from
`[start, min(start+lpt, total))` to a drop/take of exactly `lpt` lines. -/
theorem worker_slice (batch : List Line) (tc t : Nat) :
    (batch.drop (workerStart batch.length tc t)).take
        (workerEnd batch.length tc t - workerStart batch.length tc t)
      = (batch.drop (t * linesPerThread batch.length tc)).take
          (linesPerThread batch.length tc) := by
  set lpt := linesPerThread batch.length tc with hlpt
  have h1 : workerEnd batch.length tc t - workerStart batch.length tc t
      = min lpt (batch.length - t * lpt) := by
    simp only [workerEnd, workerStart, ← hlpt]
    omega
  rw [h1, workerStart, ← hlpt]
  have h2 : batch.length - t * lpt = (batch.drop (t * lpt)).length := by
    rw [List.length_drop]
  rw [h2, take_min_length]

/-! ### Collapsing the merge phase -/

theorem mergeWorkerGo_eq (hash : Word → Nat) (sc : Nat) (tables : List Table)
    (tc wid : Nat) (hlen : tables.length = tc) (hwid : wid < tc) :
    ∀ (d i : Nat) (g : Table), tables.length - i = d →
      mergeWorkerGo hash sc tables tc wid i g
        = if i ≤ wid then mergeInto g (tables.getD wid []) else g := by
  intro d
  induction d with
  | zero =>
    intro i g hd
    rw [mergeWorkerGo, if_neg (by omega), if_neg (by omega)]
  | succ d ih =>
    intro i g hd
    have hi : i < tables.length := by omega
    rw [mergeWorkerGo, if_pos hi]
    have hmod : i % tc = i := Nat.mod_eq_of_lt (by omega)
    by_cases hiw : i = wid
    · subst hiw
      rw [if_pos hmod, ih (i + 1) _ (by omega), if_neg (by omega),
        if_pos (le_refl i), mergeTable_eq_mergeInto]
    · rw [if_neg (by omega), ih (i + 1) _ (by omega)]
      by_cases hle : i ≤ wid
      · rw [if_pos (by omega), if_pos hle]
      · rw [if_neg (by omega), if_neg hle]

theorem mergeWorkerRun_eq (hash : Word → Nat) (sc : Nat) (tables : List Table)
    (tc wid : Nat) (hlen : tables.length = tc) (hwid : wid < tc) (g : Table) :
    mergeWorkerRun hash sc tables tc wid g = mergeInto g (tables.getD wid []) := by
  rw [mergeWorkerRun,
    mergeWorkerGo_eq hash sc tables tc wid hlen hwid _ 0 g rfl,
    if_pos (Nat.zero_le wid)]

theorem mergeAllGo_eq (hash : Word → Nat) (sc : Nat) (tables : List Table)
    (tc : Nat) (hlen : tables.length = tc) :
    ∀ (d w : Nat) (g : Table), tc - w = d →
      mergeAllGo hash sc tables tc w g = (tables.drop w).foldl mergeInto g := by
  intro d
  induction d with
  | zero =>
    intro w g hd
    rw [mergeAllGo, if_neg (by omega), List.drop_eq_nil_of_le (by omega)]
    rfl
  | succ d ih =>
    intro w g hd
    have hw : w < tc := by omega
    have hwl : w < tables.length := by omega
    rw [mergeAllGo, if_pos hw, ih (w + 1) _ (by omega),
      mergeWorkerRun_eq hash sc tables tc w hlen hw g,
      List.drop_eq_getElem_cons (n := w) hwl, List.foldl_cons,
      List.getD_eq_getElem tables [] hwl]

theorem mergeAll_eq (hash : Word → Nat) (sc : Nat) (tables : List Table)
    (tc : Nat) (hlen : tables.length = tc) (g : Table) :
    mergeAll hash sc tables tc g = tables.foldl mergeInto g := by
  rw [mergeAll, mergeAllGo_eq hash sc tables tc hlen _ 0 g rfl, List.drop_zero]

theorem foldl_mergeInto_countTokens (tss : List (List Word)) (g : Table) :
    ((tss.map fun ts => countTokens ts []).foldl mergeInto g)
      = countTokens tss.flatten g := by
  induction tss generalizing g with
  | nil => rfl
  | cons a rest ih =>
    rw [List.map_cons, List.foldl_cons, mergeInto_countTokens_nil,
      List.flatten_cons, countTokens_append, ih]

/-! ### The whole pipeline equals the sequential count -/

theorem mapBatch_eq (batch : List Line) (tc : Nat) :
    mapBatch batch tc
      = ((((List.range tc).map fun t =>
            (batch.drop (t * linesPerThread batch.length tc)).take
              (linesPerThread batch.length tc)).map tokensOfLines).map
          fun ts => countTokens ts []) := by
  rw [mapBatch, List.map_map, List.map_map]
  apply List.map_congr_left
  intro t _
  rw [Function.comp_apply, Function.comp_apply, countWordsInChunk_spec,
    worker_slice]

theorem processBatch_eq (hash : Word → Nat) (sc tc : Nat) (htc : 1 ≤ tc)
    (g : Table) (batch : List Line) :
    processBatch hash sc tc g batch = countTokens (tokensOfLines batch) g := by
  have hlen : (mapBatch batch tc).length = tc := by
    rw [mapBatch, List.length_map, List.length_range]
  rw [processBatch, mergeAll_eq hash sc _ tc hlen g, mapBatch_eq,
    foldl_mergeInto_countTokens, ← tokensOfLines_flatten,
    chunks_flatten (linesPerThread batch.length tc) tc batch
      (by rw [Nat.mul_comm]; exact le_ceil_mul batch.length tc htc)]

theorem toBatches_flatten (batchSize : Nat) (hbs : 1 ≤ batchSize)
    (lines : List Line) : (toBatches batchSize lines).flatten = lines := by
  rw [toBatches]
  exact chunks_flatten batchSize _ lines (le_ceil_mul lines.length batchSize hbs)

theorem foldl_processBatch (hash : Word → Nat) (sc tc : Nat) (htc : 1 ≤ tc) :
    ∀ (bss : List (List Line)) (g : Table),
      bss.foldl (processBatch hash sc tc) g
        = countTokens (tokensOfLines bss.flatten) g := by
  intro bss
  induction bss with
  | nil =>
    intro g
    simp [tokensOfLines_nil, countTokens_nil]
  | cons b rest ih =>
    intro g
    rw [List.foldl_cons, ih, processBatch_eq hash sc tc htc, List.flatten_cons,
      tokensOfLines_append, countTokens_append]

/-- Master theorem: for any hash function, stripe count, positive batch size
and positive worker count, the global table produced by the batched,
partitioned, merged pipeline is literally the table a single thread would
build by tokenizing the whole input in order. -/
theorem pipelineTable_eq_seqTable (hash : Word → Nat) (sc bs tc : Nat)
    (hbs : 1 ≤ bs) (htc : 1 ≤ tc) (lines : List Line) :
    pipelineTable hash sc bs tc lines = seqTable lines := by
  rw [pipelineTable, foldl_processBatch hash sc tc htc,
    toBatches_flatten bs hbs lines, seqTable]

/-! ### The tokenizer equals the spec's maximal-run splitter -/

theorem specTokens_nil : specTokens [] = [] := by
  rw [specTokens]

theorem specTokens_cons_pos (c : Byte) (rest : List Byte)
    (h : qualifies c = true) :
    specTokens (c :: rest)
      = (c :: rest.takeWhile qualifies) :: specTokens (rest.dropWhile qualifies) := by
  rw [specTokens]
  simp [h]

theorem specTokens_cons_neg (c : Byte) (rest : List Byte)
    (h : qualifies c = false) :
    specTokens (c :: rest) = specTokens rest := by
  rw [specTokens]
  simp [h]

theorem tokenizeAux_eq_specTokens : ∀ (l : List Byte) (w : Word),
    tokenizeAux l w
      = if w = [] then specTokens l
        else (w ++ l.takeWhile qualifies) :: specTokens (l.dropWhile qualifies) := by
  intro l
  induction l with
  | nil =>
    intro w
    by_cases hw : w = [] <;>
      simp [tokenizeAux, specTokens_nil, hw]
  | cons c rest ih =>
    intro w
    by_cases hq : qualifies c = true
    · rw [show tokenizeAux (c :: rest) w = tokenizeAux rest (w ++ [c]) by
        simp [tokenizeAux, hq]]
      rw [ih (w ++ [c]), if_neg (by simp)]
      by_cases hw : w = []
      · subst hw
        rw [if_pos rfl, specTokens_cons_pos c rest hq]
        simp
      · rw [if_neg hw, List.takeWhile_cons_of_pos hq,
          List.dropWhile_cons_of_pos hq]
        simp
    · have hq' : qualifies c = false := by
        cases h : qualifies c
        · rfl
        · exact absurd h hq
      by_cases hw : w = []
      · subst hw
        rw [show tokenizeAux (c :: rest) [] = tokenizeAux rest [] by
          simp [tokenizeAux, hq'], ih [], if_pos rfl, if_pos rfl,
          specTokens_cons_neg c rest hq']
      · rw [show tokenizeAux (c :: rest) w = w :: tokenizeAux rest [] by
          simp [tokenizeAux, hq', hw], ih [], if_pos rfl, if_neg hw,
        List.takeWhile_cons_of_neg (by simp [hq']),
          List.dropWhile_cons_of_neg (by simp [hq']),
          specTokens_cons_neg c rest hq']
        simp

theorem tokenizeLine_eq_specTokens (line : Line) :
    tokenizeLine line = specTokens line := by
  rw [tokenizeLine, tokenizeAux_eq_specTokens line [], if_pos rfl]

theorem nil_not_mem_specTokens : ∀ (n : Nat) (l : List Byte), l.length ≤ n →
    [] ∉ specTokens l := by
  intro n
  induction n with
  | zero =>
    intro l hl
    have : l = [] := List.eq_nil_of_length_eq_zero (by omega)
    subst this
    rw [specTokens_nil]
    simp
  | succ n ih =>
    intro l hl
    cases l with
    | nil => rw [specTokens_nil]; simp
    | cons c rest =>
      by_cases hq : qualifies c = true
      · rw [specTokens_cons_pos c rest hq]
        simp only [List.mem_cons, not_or]
        refine ⟨by simp, ?_⟩
        exact ih (rest.dropWhile qualifies)
          (le_trans (List.dropWhile_sublist (p := qualifies)).length_le
            (by simpa using hl))
      · rw [specTokens_cons_neg c rest (by simpa using hq)]
        exact ih rest (by simpa using hl)

theorem nil_not_mem_tokenizeLine (line : Line) : [] ∉ tokenizeLine line := by
  rw [tokenizeLine_eq_specTokens]
  exact nil_not_mem_specTokens line.length line (le_refl _)

/-! ### The lexicographic order on words -/

theorem wordLt_irrefl : ∀ a, wordLt a a = false
  | [] => rfl
  | _ :: rest => by simp [wordLt, wordLt_irrefl rest]

theorem wordLt_trans : ∀ a b c, wordLt a b = true → wordLt b c = true →
    wordLt a c = true := by
  intro a
  induction a with
  | nil =>
    intro b c h1 h2
    cases b <;> cases c <;> simp_all [wordLt]
  | cons x xs ih =>
    intro b c h1 h2
    cases b with
    | nil => simp [wordLt] at h1
    | cons y ys =>
      cases c with
      | nil => simp [wordLt] at h2
      | cons z zs =>
        simp only [wordLt, Bool.or_eq_true, Bool.and_eq_true,
          decide_eq_true_eq, beq_iff_eq] at h1 h2 ⊢
        rcases h1 with h1 | ⟨rfl, h1⟩
        · rcases h2 with h2 | ⟨rfl, h2⟩
          · exact Or.inl (Nat.lt_trans h1 h2)
          · exact Or.inl h1
        · rcases h2 with h2 | ⟨rfl, h2⟩
          · exact Or.inl h2
          · exact Or.inr ⟨rfl, ih ys zs h1 h2⟩

theorem wordLt_connex : ∀ a b, wordLt a b = false →
    wordLt b a = true ∨ a = b := by
  intro a
  induction a with
  | nil =>
    intro b h
    cases b with
    | nil => exact Or.inr rfl
    | cons y ys => simp [wordLt] at h
  | cons x xs ih =>
    intro b h
    cases b with
    | nil => simp [wordLt]
    | cons y ys =>
      simp only [wordLt, Bool.or_eq_false_iff, Bool.and_eq_false_iff,
        decide_eq_false_iff_not, beq_eq_false_iff_ne] at h
      simp only [wordLt, Bool.or_eq_true, Bool.and_eq_true,
        decide_eq_true_eq, beq_iff_eq]
      obtain ⟨hxy, hrest⟩ := h
      by_cases hxq : x = y
      · subst hxq
        rcases hrest with hne | hf
        · exact absurd rfl hne
        · rcases ih ys hf with h' | h'
          · exact Or.inl (Or.inr ⟨rfl, h'⟩)
          · exact Or.inr (by rw [h'])
      · have hyx : y < x := by
          rcases Nat.lt_trichotomy x y with h' | h' | h'
          · exact absurd h' hxy
          · exact absurd h' hxq
          · exact h'
        exact Or.inl (Or.inl hyx)

theorem wordLt_asymm (a b : Word) (h : wordLt a b = true) :
    wordLt b a = false := by
  cases hba : wordLt b a
  · rfl
  · have htt := wordLt_trans a b a h hba
    rw [wordLt_irrefl] at htt
    exact htt.symm

theorem entryLe_total : ∀ a b : Word × Nat, entryLe a b ∨ entryLe b a := by
  intro a b
  cases h : wordLt b.1 a.1
  · exact Or.inl h
  · exact Or.inr (wordLt_asymm b.1 a.1 h)

theorem entryLe_trans : ∀ a b c : Word × Nat,
    entryLe a b → entryLe b c → entryLe a c := by
  intro a b c h1 h2
  unfold entryLe at h1 h2 ⊢
  cases hca : wordLt c.1 a.1
  · rfl
  · exfalso
    rcases wordLt_connex b.1 a.1 h1 with h' | h'
    · exact absurd h2 (by rw [wordLt_trans c.1 a.1 b.1 hca h']; simp)
    · rw [← h'] at hca
      exact absurd h2 (by rw [hca]; simp)

/-! ### Distinct keys and sortedness of the output -/

theorem getCount_eq_zero_of_not_mem : ∀ (t : Table) (w : Word),
    w ∉ keysOf t → getCount t w = 0 := by
  intro t
  induction t with
  | nil => intro w _; rfl
  | cons p rest ih =>
    intro w hw
    obtain ⟨x, k⟩ := p
    rw [keysOf_cons, List.mem_cons, not_or] at hw
    have hx : ¬ x = w := fun h => hw.1 h.symm
    simp [getCount, hx, ih w hw.2]

theorem nodup_keysOf_addCount (t : Table) (w : Word) (n : Nat)
    (h : (keysOf t).Nodup) : (keysOf (addCount t w n)).Nodup := by
  induction t with
  | nil => simp [addCount, keysOf_cons, keysOf_nil]
  | cons p rest ih =>
    obtain ⟨x, k⟩ := p
    rw [keysOf_cons, List.nodup_cons] at h
    by_cases hx : x = w
    · subst hx
      rw [addCount_cons_self, keysOf_cons, List.nodup_cons]
      exact h
    · rw [addCount_cons_ne _ _ _ _ _ hx, keysOf_cons, List.nodup_cons]
      refine ⟨?_, ih h.2⟩
      rw [mem_keysOf_addCount]
      rintro (hmem | rfl)
      · exact h.1 hmem
      · exact hx rfl

theorem nodup_keysOf_countTokens : ∀ (ts : List Word) (t : Table),
    (keysOf t).Nodup → (keysOf (countTokens ts t)).Nodup := by
  intro ts
  induction ts with
  | nil => intro t h; exact h
  | cons w rest ih =>
    intro t h
    rw [countTokens_cons]
    exact ih _ (nodup_keysOf_addCount t w 1 h)

theorem nodup_keysOf_seqTable (lines : List Line) :
    (keysOf (seqTable lines)).Nodup := by
  rw [seqTable]
  exact nodup_keysOf_countTokens _ [] (by simp [keysOf_nil])

theorem sortedWords_pairwise_entryLt (g : Table) (h : (keysOf g).Nodup) :
    (sortedWords g).Pairwise entryLt := by
  have hsorted : (sortedWords g).Pairwise entryLe := by
    haveI : IsTotal (Word × Nat) entryLe := ⟨entryLe_total⟩
    haveI : IsTrans (Word × Nat) entryLe := ⟨entryLe_trans⟩
    exact List.sorted_insertionSort entryLe g
  have hperm : List.Perm (sortedWords g) g := List.perm_insertionSort entryLe g
  have hnodup : (keysOf (sortedWords g)).Nodup :=
    ((hperm.map Prod.fst).nodup_iff).mpr h
  have hne : (sortedWords g).Pairwise fun a b => a.1 ≠ b.1 := by
    rw [keysOf] at hnodup
    exact List.pairwise_map.mp hnodup
  refine (hsorted.and hne).imp ?_
  rintro a b ⟨hle, hab⟩
  rcases wordLt_connex b.1 a.1 hle with h' | h'
  · exact h'
  · exact absurd h'.symm hab

/-! ### Count sums -/

theorem sumCounts_countTokens : ∀ (ts : List Word) (t : Table),
    sumCounts (countTokens ts t) = sumCounts t + ts.length := by
  intro ts
  induction ts with
  | nil => intro t; simp [countTokens_nil]
  | cons w rest ih =>
    intro t
    rw [countTokens_cons, ih, sumCounts_addCount, List.length_cons]
    omega

theorem sum_snd_sortedWords (g : Table) :
    ((sortedWords g).map Prod.snd).sum = sumCounts g :=
  ((List.perm_insertionSort entryLe g).map Prod.snd).sum_eq

theorem entriesSum_cons (kv : Word × Nat) (t : Table) (w : Word) :
    entriesSum (kv :: t) w
      = (if kv.1 = w then kv.2 else 0) + entriesSum t w := by
  by_cases h : kv.1 = w
  · simp [entriesSum, List.filter_cons, h]
  · simp [entriesSum, List.filter_cons, h]

theorem getCount_mergeInto : ∀ (t g : Table) (w : Word),
    getCount (mergeInto g t) w = getCount g w + entriesSum t w := by
  intro t
  induction t with
  | nil =>
    intro g w
    simp [mergeInto_nil, entriesSum]
  | cons kv rest ih =>
    intro g w
    rw [mergeInto_cons, ih, getCount_addCount, entriesSum_cons]
    omega

theorem entriesSum_perm (t₁ t₂ : Table) (h : List.Perm t₁ t₂) (w : Word) :
    entriesSum t₁ w = entriesSum t₂ w :=
  ((h.filter _).map Prod.snd).sum_eq

/-! ### The worker ranges partition the batch -/

theorem lt_div_succ_mul (a b : Nat) (hb : 1 ≤ b) : a < (a / b + 1) * b := by
  have h1 := Nat.div_add_mod' a b
  have h2 := Nat.mod_lt a hb
  have h3 : (a / b + 1) * b = a / b * b + b := by ring
  omega

theorem exists_unique_worker (lpt tc total j : Nat) (hlpt : 1 ≤ lpt)
    (hcov : total ≤ lpt * tc) (hj : j < total) :
    ∃! t, t < tc ∧ t * lpt ≤ j ∧ j < min (t * lpt + lpt) total := by
  refine ⟨j / lpt, ⟨?_, ?_, ?_⟩, ?_⟩
  · rw [Nat.div_lt_iff_lt_mul (by omega)]
    have hc : lpt * tc = tc * lpt := Nat.mul_comm lpt tc
    omega
  · exact Nat.div_mul_le_self j lpt
  · have h1 := lt_div_succ_mul j lpt hlpt
    have h3 : (j / lpt + 1) * lpt = j / lpt * lpt + lpt := by ring
    omega
  · rintro t' ⟨_, hle, hlt⟩
    have h1 : j < t' * lpt + lpt := by omega
    have h3 : (t' + 1) * lpt = t' * lpt + lpt := by ring
    exact (Nat.div_eq_of_lt_le hle (by omega)).symm

/-! ### Token characters are the qualifying line characters, unchanged -/

theorem specTokens_flatten : ∀ (n : Nat) (l : List Byte), l.length ≤ n →
    (specTokens l).flatten = l.filter qualifies := by
  intro n
  induction n with
  | zero =>
    intro l hl
    have : l = [] := List.eq_nil_of_length_eq_zero (by omega)
    subst this
    rw [specTokens_nil]
    rfl
  | succ n ih =>
    intro l hl
    cases l with
    | nil => rw [specTokens_nil]; rfl
    | cons c rest =>
      by_cases hq : qualifies c = true
      · rw [specTokens_cons_pos c rest hq, List.flatten_cons,
          List.filter_cons_of_pos hq,
          ih (rest.dropWhile qualifies)
            (le_trans (List.dropWhile_sublist (p := qualifies)).length_le
              (by simpa using hl))]
        have hfilter : rest.filter qualifies
            = rest.takeWhile qualifies ++ (rest.dropWhile qualifies).filter qualifies := by
          conv_lhs => rw [← List.takeWhile_append_dropWhile (p := qualifies) (l := rest)]
          rw [List.filter_append,
            List.filter_eq_self.mpr fun a ha => List.mem_takeWhile_imp ha]
        rw [hfilter]
        simp
      · have hq' : qualifies c = false := by
          cases h : qualifies c
          · rfl
          · exact absurd h hq
        rw [specTokens_cons_neg c rest hq', List.filter_cons_of_neg (by simp [hq']),
          ih rest (by simpa using hl)]

theorem tokenizeLine_flatten (line : Line) :
    (tokenizeLine line).flatten = line.filter qualifies := by
  rw [tokenizeLine_eq_specTokens]
  exact specTokens_flatten line.length line (le_refl _)

/-! ### Claim theorems -/

/-- C1: count conservation.  For every input, any batch size ≥ 1 and any
worker count ≥ 1 (and any hash function and stripe count), the sum of all
counts in the final sorted output equals the total number of tokens the
tokenizer produces over the whole file processed sequentially by a single
thread: no token is lost or double-counted across batches, map workers, or
the merge. -/
theorem claim_C1_count_conservation (hash : Word → Nat) (sc bs tc : Nat)
    (hbs : 1 ≤ bs) (htc : 1 ≤ tc) (lines : List Line) :
    ((sortedWords (pipelineTable hash sc bs tc lines)).map Prod.snd).sum
      = (tokensOfLines lines).length := by
  rw [pipelineTable_eq_seqTable hash sc bs tc hbs htc lines,
    sum_snd_sortedWords, seqTable, sumCounts_countTokens]
  simp [sumCounts]

/-- Witness for C1 at the spec's example input with batchSize 2 and two
workers: the six tokens are conserved. -/
theorem claim_C1_witness :
    1 ≤ 2 ∧
    ((sortedWords (pipelineTable (fun _ => 0) 2 2 2
        [strBytes "The cat sat.", strBytes "THE CAT ran!"])).map Prod.snd).sum
      = (tokensOfLines [strBytes "The cat sat.", strBytes "THE CAT ran!"]).length :=
  ⟨by decide, claim_C1_count_conservation (fun _ => 0) 2 2 2 (by decide)
    (by decide) [strBytes "The cat sat.", strBytes "THE CAT ran!"]⟩

/-- C2 counterexample: the tokenizer performs no case-folding (`word += ch`
at `main.cpp` line 48 copies the character unchanged), so on the spec's
example input the produced token sequence is not `the, cat, sat, the, cat,
ran`. -/
theorem claim_C2_counterexample :
    tokensOfLines [strBytes "The cat sat.", strBytes "THE CAT ran!"]
      ≠ [strBytes "the", strBytes "cat", strBytes "sat",
         strBytes "the", strBytes "cat", strBytes "ran"] := by
  decide

/-- C2 amended: no case-folding is applied — token characters are accumulated
unchanged (the characters of the emitted tokens, concatenated, are exactly
the qualifying characters of the line in order), and on the input lines
`["The cat sat.", "THE CAT ran!"]` with batchSize 2 and two workers the token
sequence is `The, cat, sat, THE, CAT, ran` and the sorted output is
`CAT -> 1, THE -> 1, The -> 1, cat -> 1, ran -> 1, sat -> 1`. -/
theorem claim_C2_amended :
    (∀ line : Line, (tokenizeLine line).flatten = line.filter qualifies)
    ∧ tokensOfLines [strBytes "The cat sat.", strBytes "THE CAT ran!"]
        = [strBytes "The", strBytes "cat", strBytes "sat",
           strBytes "THE", strBytes "CAT", strBytes "ran"]
    ∧ sortedWords (pipelineTable (fun _ => 0) 2 2 2
          [strBytes "The cat sat.", strBytes "THE CAT ran!"])
        = [(strBytes "CAT", 1), (strBytes "THE", 1), (strBytes "The", 1),
           (strBytes "cat", 1), (strBytes "ran", 1), (strBytes "sat", 1)] := by
  refine ⟨tokenizeLine_flatten, by decide, ?_⟩
  rw [pipelineTable_eq_seqTable (fun _ => 0) 2 2 2 (by decide) (by decide)]
  decide

/-- C3: tokenizer classification.  The tokenizer equals the spec's
maximal-run splitter over the qualifying-character predicate; a character
qualifies iff it is alphabetic (with every byte ≥ 0x80 treated as a letter)
and is not a hyphen and is not whitespace; digits never qualify; and a
zero-length token is never emitted. -/
theorem claim_C3_tokenizer_classification :
    (∀ line : Line, tokenizeLine line = specTokens line)
    ∧ (∀ line : Line, [] ∉ tokenizeLine line)
    ∧ (∀ c : Nat, qualifies c = true ↔
        ((isalphaC c = true ∨ 128 ≤ c) ∧ c ≠ 45 ∧ isspaceC c = false))
    ∧ (∀ c : Nat, 48 ≤ c → c ≤ 57 → qualifies c = false) := by
  refine ⟨tokenizeLine_eq_specTokens, nil_not_mem_tokenizeLine, ?_, ?_⟩
  · intro c
    simp only [qualifies, Bool.and_eq_true, Bool.or_eq_true,
      Bool.not_eq_true', beq_eq_false_iff_ne, decide_eq_true_eq]
    tauto
  · intro c h1 h2
    have h3 : isalphaC c = false := by
      rw [isalphaC]
      simp only [Bool.or_eq_false_iff, Bool.and_eq_false_iff,
        decide_eq_false_iff_not]
      omega
    have h4 : decide (128 ≤ c) = false := decide_eq_false (by omega)
    rw [qualifies, h3, h4]
    rfl

/-- Witness for C3: the digit `5` (byte 53) is excluded, and the tokenizer
agrees with the spec splitter on a line mixing letters, a digit and a
hyphen. -/
theorem claim_C3_witness :
    tokenizeLine (strBytes "ab1-c") = specTokens (strBytes "ab1-c")
    ∧ (48 ≤ 53 ∧ 53 ≤ 57 ∧ qualifies 53 = false) :=
  ⟨claim_C3_tokenizer_classification.1 (strBytes "ab1-c"),
    by decide, by decide,
    claim_C3_tokenizer_classification.2.2.2 53 (by decide) (by decide)⟩

/-- C4: partition completeness.  For every batch with at least one line and
every worker count ≥ 1, every line index of the batch lies in exactly one
worker's range `[t*lpt, min(t*lpt + lpt, total))` with
`lpt = ceil(total / workerCount)`; each range has `lpt` lines unless it is
clipped at the end of the batch; and a worker whose range is empty
contributes an empty table. -/
theorem claim_C4_partition (total tc : Nat) (htotal : 1 ≤ total)
    (htc : 1 ≤ tc) :
    (∀ j, j < total → ∃! t, t < tc ∧ workerStart total tc t ≤ j
        ∧ j < workerEnd total tc t)
    ∧ (∀ t, t < tc →
        workerEnd total tc t - workerStart total tc t = linesPerThread total tc
        ∨ workerEnd total tc t = total)
    ∧ (∀ (L : List Line) (s e : Nat), e ≤ s →
        countWordsInChunk L s e [] = ([] : Table)) := by
  have hlpt : 1 ≤ linesPerThread total tc := by
    rw [linesPerThread, Nat.le_div_iff_mul_le (by omega)]
    omega
  have hcov : total ≤ linesPerThread total tc * tc := by
    rw [linesPerThread]
    exact le_ceil_mul total tc htc
  refine ⟨?_, ?_, ?_⟩
  · intro j hj
    simp only [workerStart, workerEnd]
    exact exists_unique_worker (linesPerThread total tc) tc total j hlpt hcov hj
  · intro t ht
    simp only [workerStart, workerEnd]
    omega
  · intro L s e he
    rw [countWordsInChunk, if_neg (by omega)]

/-- Witness for C4 with a 5-line batch and 2 workers: line 3 lies in exactly
one worker range. -/
theorem claim_C4_witness :
    1 ≤ 5 ∧ 1 ≤ 2
    ∧ (∃! t, t < 2 ∧ workerStart 5 2 t ≤ 3 ∧ 3 < workerEnd 5 2 t) :=
  ⟨by decide, by decide,
    (claim_C4_partition 5 2 (by decide) (by decide)).1 3 (by decide)⟩

/-- C5: merge assignment and accumulation.  Every local-table index is
assigned to exactly one merge worker, the one whose id is the index modulo
the merge worker count; a worker's run merges exactly its assigned table
(for the program's table count, which equals the worker count); and each
merged `(word, count)` entry adds `count` to the global entry of that word,
creating it with value `count` when absent and leaving other words
untouched. -/
theorem claim_C5_merge_assignment (hash : Word → Nat) (sc tc : Nat)
    (htc : 1 ≤ tc) :
    (∀ i : Nat, ∃! w, w < tc ∧ i % tc = w)
    ∧ (∀ (tables : List Table) (g : Table) (wid : Nat),
        tables.length = tc → wid < tc →
        mergeWorkerRun hash sc tables tc wid g
          = mergeInto g (tables.getD wid []))
    ∧ (∀ (g : Table) (w : Word) (n : Nat),
        getCount (addCount g w n) w = getCount g w + n
        ∧ (w ∉ keysOf g → getCount (addCount g w n) w = n)
        ∧ w ∈ keysOf (addCount g w n)
        ∧ ∀ v, v ≠ w → getCount (addCount g w n) v = getCount g v) := by
  refine ⟨?_, ?_, ?_⟩
  · intro i
    refine ⟨i % tc, ⟨Nat.mod_lt i (by omega), rfl⟩, ?_⟩
    rintro w ⟨_, heq⟩
    exact heq.symm
  · intro tables g wid hlen hwid
    exact mergeWorkerRun_eq hash sc tables tc wid hlen hwid g
  · intro g w n
    refine ⟨?_, ?_, ?_, ?_⟩
    · rw [getCount_addCount]
      simp
    · intro habs
      rw [getCount_addCount, getCount_eq_zero_of_not_mem g w habs]
      simp
    · rw [mem_keysOf_addCount]
      exact Or.inr rfl
    · intro v hv
      rw [getCount_addCount, if_neg fun h => hv h.symm]
      omega

/-- Witness for C5 with two merge workers: table index 3 is assigned to
exactly one worker (worker 1). -/
theorem claim_C5_witness :
    1 ≤ 2 ∧ (∃! w, w < 2 ∧ 3 % 2 = w) :=
  ⟨by decide, (claim_C5_merge_assignment (fun _ => 0) 2 2 (by decide)).1 3⟩

/-- C6: sort totality.  In every run (any input, any batch size ≥ 1, any
worker count ≥ 1), the emitted `(word, count)` entries are strictly
increasing by word under lexicographic order, so no word appears twice. -/
theorem claim_C6_sort_totality (hash : Word → Nat) (sc bs tc : Nat)
    (hbs : 1 ≤ bs) (htc : 1 ≤ tc) (lines : List Line) :
    (sortedWords (pipelineTable hash sc bs tc lines)).Pairwise entryLt := by
  rw [pipelineTable_eq_seqTable hash sc bs tc hbs htc lines]
  exact sortedWords_pairwise_entryLt _ (nodup_keysOf_seqTable lines)

/-- Witness for C6 on the spec's example input: the output entries are
strictly increasing by word. -/
theorem claim_C6_witness :
    1 ≤ 2 ∧
    (sortedWords (pipelineTable (fun _ => 0) 2 2 2
        [strBytes "The cat sat.", strBytes "THE CAT ran!"])).Pairwise entryLt :=
  ⟨by decide, claim_C6_sort_totality (fun _ => 0) 2 2 2 (by decide) (by decide)
    [strBytes "The cat sat.", strBytes "THE CAT ran!"]⟩

/-- C7: determinism.  For a fixed input, any two runs with any hash
functions, any stripe counts ≥ 1 and any worker counts ≥ 1 produce identical
sorted output; moreover the merged counts are invariant under any
reordering (interleaving) of the merged entries, which is why thread
scheduling cannot affect the result. -/
theorem claim_C7_determinism (hash₁ hash₂ : Word → Nat) (sc₁ sc₂ bs tc₁ tc₂ : Nat)
    (_hsc₁ : 1 ≤ sc₁) (_hsc₂ : 1 ≤ sc₂) (hbs : 1 ≤ bs) (htc₁ : 1 ≤ tc₁)
    (htc₂ : 1 ≤ tc₂) (lines : List Line) :
    sortedWords (pipelineTable hash₁ sc₁ bs tc₁ lines)
      = sortedWords (pipelineTable hash₂ sc₂ bs tc₂ lines)
    ∧ ∀ (g ops₁ ops₂ : Table) (w : Word), List.Perm ops₁ ops₂ →
        getCount (mergeInto g ops₁) w = getCount (mergeInto g ops₂) w := by
  constructor
  · rw [pipelineTable_eq_seqTable hash₁ sc₁ bs tc₁ hbs htc₁ lines,
      pipelineTable_eq_seqTable hash₂ sc₂ bs tc₂ hbs htc₂ lines]
  · intro g ops₁ ops₂ w hperm
    rw [getCount_mergeInto, getCount_mergeInto,
      entriesSum_perm ops₁ ops₂ hperm w]

/-- Witness for C7: one and two workers (with different stripe counts and
hash functions) give the same sorted output on the example input. -/
theorem claim_C7_witness :
    1 ≤ 2 ∧
    sortedWords (pipelineTable (fun _ => 0) 1 2 1
        [strBytes "The cat sat.", strBytes "THE CAT ran!"])
      = sortedWords (pipelineTable (fun w => w.length) 2 2 2
        [strBytes "The cat sat.", strBytes "THE CAT ran!"]) :=
  ⟨by decide, (claim_C7_determinism (fun _ => 0) (fun w => w.length) 1 2 2 1 2
    (by decide) (by decide) (by decide) (by decide) (by decide)
    [strBytes "The cat sat.", strBytes "THE CAT ran!"]).1⟩

/-- C8: exit codes.  The program exits 0 exactly when the argument count is
right and both the input file and the output destination open; otherwise it
exits 1 after printing a diagnostic. -/
theorem claim_C8_exit_codes (hash : Word → Nat) (argc : Nat) (inOk : Bool)
    (st : InputStream) (outOk : Bool) (bs tc : Nat) :
    ((mainRun hash argc inOk st outOk bs tc).exitCode = 0
      ↔ (argc = 2 ∧ inOk = true ∧ outOk = true))
    ∧ ((mainRun hash argc inOk st outOk bs tc).exitCode = 1
          ∧ (mainRun hash argc inOk st outOk bs tc).stderrMsgs ≠ []
      ↔ ¬ (argc = 2 ∧ inOk = true ∧ outOk = true)) := by
  by_cases h1 : argc = 2 <;> cases inOk <;> cases outOk <;>
    simp [mainRun, h1]

/-- C9 counterexample: with batch size 1 and one worker, a stream that
delivers two lines (so one in-loop batch has already been mapped and merged)
and then fails with a mid-stream read error still ends with exit code 0 and
a written output file — the read failure is not fatal and partial output is
emitted, contradicting the claim. -/
theorem claim_C9_counterexample :
    (mainRun (fun _ => 0) 2 true ⟨[[97], [98]], true⟩ true 1 1).exitCode = 0
    ∧ (mainRun (fun _ => 0) 2 true ⟨[[97], [98]], true⟩ true 1 1).fileWritten
        ≠ none := by
  constructor <;> simp [mainRun]

/-- C9 amended: the read loop (`while (std::getline(...))`, line 126) cannot
distinguish a mid-stream read error from end of file, so a run whose stream
fails mid-stream behaves exactly like a run whose stream ends there: the
lines read so far are counted, the output file is written, and the exit code
is 0 — partial output is emitted rather than the run aborting. -/
theorem claim_C9_amended (hash : Word → Nat) (delivered : List Line)
    (bs tc : Nat) :
    mainRun hash 2 true ⟨delivered, true⟩ true bs tc
      = mainRun hash 2 true ⟨delivered, false⟩ true bs tc
    ∧ (mainRun hash 2 true ⟨delivered, true⟩ true bs tc).exitCode = 0
    ∧ (mainRun hash 2 true ⟨delivered, true⟩ true bs tc).fileWritten
        = some ("output.txt",
            outputContent (pipelineTable hash tc bs tc delivered)) := by
  refine ⟨rfl, ?_, ?_⟩ <;> simp [mainRun]

/-- C10: implicit output destination.  Every successful run writes its
results to the fixed path `output.txt`: first the header line
`=== Final Word Counts (A → Z) ===`, then one `word -> count` line per
sorted entry; standard output receives only the tagged debug and timing
messages, never the results. -/
theorem claim_C10_output_destination (hash : Word → Nat) (st : InputStream)
    (bs tc : Nat) :
    (mainRun hash 2 true st true bs tc).fileWritten
      = some ("output.txt",
          "=== Final Word Counts (A → Z) ==="
            :: (sortedWords (pipelineTable hash tc bs tc st.delivered)).map
                renderEntry)
    ∧ (mainRun hash 2 true st true bs tc).exitCode = 0
    ∧ ∀ m ∈ (mainRun hash 2 true st true bs tc).stdoutMsgs,
        (∃ s e, m = StdoutMsg.mapDebug s e)
        ∨ (∃ w, m = StdoutMsg.mergeDebug w)
        ∨ m = StdoutMsg.timing := by
  refine ⟨?_, ?_, ?_⟩
  · simp [mainRun, outputContent, headerLine]
  · simp [mainRun]
  · intro m _
    cases m with
    | mapDebug s e => exact Or.inl ⟨s, e, rfl⟩
    | mergeDebug w => exact Or.inr (Or.inl ⟨w, rfl⟩)
    | timing => exact Or.inr (Or.inr rfl)

end WC
